import Mathlib

/-!
Verification of the VimCraft token-splitting and effect-composition engine.

Shallow embedding of:
* the token model (`VimToken` / `ComplexVimToken`, src/unnamed/part_004);
* the tokenizer adapter (`PrismVimHighlighter.tokenize` /
  `convertPrismTokensToVim`, src/unnamed/part_004);
* the effect engine (`VisualEffectsProcessor`, src/js/neovim-simulator.js).

Modelling conventions:
* JS strings are `List Char`; `s.substring(a, b)` is `(s.drop a).take (b - a)`
  and `s.charAt(i)` is `(s.drop i).take 1` / `(s.drop i).head?` — these agree
  with JS on every index actually reachable in the embedded code.
* JS integer positions are `Nat` (the UI only ever passes non-negative
  offsets); each signed comparison of the source is translated into the
  equivalent comparison on ℕ at the point where a subtraction would truncate
  (e.g. the guard `relativePos < 0` of `splitTokenSimple` becomes
  `position < token.start`).
* JS object identity is modelled by a `uid` field: every token freshly
  allocated inside an engine call carries `uid = 0`, while a JS in-place field
  assignment is a record update that keeps the `uid`.  Copy-on-write versus
  in-place mutation is therefore observable in the output list.
* The cached HTML string `preRenderedHtml` produced by the render-time
  delegation of complex tokens is not stored (it is renderer output); the
  marking flags `hasPartialCursor` / `hasPartialSelection` and their
  parameters, which the claims observe, are stored exactly as the source
  assigns them.
-/

namespace VimCraft

/-! ### The external tokenizer's node tree

`Node = string | {type, content: string|Node[], alias?}` (spec §6).  The
array-valued content is encoded with a dedicated list inductive so that all
recursions below are structural. -/

mutual

inductive PrismNode where
  | str : List Char → PrismNode
  | node : (ty : String) → (aliases : List String) → (content : PrismContent) → PrismNode
deriving DecidableEq

inductive PrismContent where
  | ofStr : List Char → PrismContent
  | ofList : PrismNodeList → PrismContent
deriving DecidableEq

inductive PrismNodeList where
  | nil : PrismNodeList
  | cons : PrismNode → PrismNodeList → PrismNodeList
deriving DecidableEq

end

mutual

/-- `PrismVimHighlighter.extractTokenText` (part_004): full flattened text of
a node; content that is neither a string nor an array contributes `''`. -/
def extractTokenText : PrismNode → List Char
  | .str s => s
  | .node _ _ c => extractContentText c

def extractContentText : PrismContent → List Char
  | .ofStr s => s
  | .ofList l => extractListText l

def extractListText : PrismNodeList → List Char
  | .nil => []
  | .cons n ns => extractTokenText n ++ extractListText ns

end

mutual

/-- `ComplexVimToken.calculateContentLength` (part_004): total character
length of a nested structure. -/
def calculateContentLength : PrismNode → Nat
  | .str s => s.length
  | .node _ _ c => calculateContentLengthC c

def calculateContentLengthC : PrismContent → Nat
  | .ofStr s => s.length
  | .ofList l => calculateContentLengthL l

def calculateContentLengthL : PrismNodeList → Nat
  | .nil => 0
  | .cons n ns => calculateContentLength n + calculateContentLengthL ns

end

/-! ### Token model (`VimToken` / `ComplexVimToken`, part_004)

One record covers both variants; `isComplex` and `nestedStructure` are the
`ComplexVimToken` extension, `canBeSplit` models the `canBeSplit()`
capability (`true` for a plain token without the method, `false` for
`ComplexVimToken` and for flat tokens marked `canBeSplit = () => false` by
the adapter).  `uid` models JS object identity (see header). -/

structure VimToken where
  uid : Nat := 0
  type : String
  value : List Char
  start : Nat
  /-- the JS field `end` (reserved word in Lean) -/
  endPos : Nat
  cursor : Option String := none
  selected : Bool := false
  isLastSelectedChar : Bool := false
  prismClasses : List String := []
  isComplex : Bool := false
  canBeSplit : Bool := true
  nestedStructure : Option PrismNode := none
  hasPartialSelection : Bool := false
  partialSelectionStart : Nat := 0
  partialSelectionEnd : Nat := 0
  partialLastSelectedPosition : Nat := 0
  hasPartialCursor : Bool := false
  partialCursorPosition : Nat := 0
  partialCursorClass : String := ""
deriving DecidableEq

/-- `new VimToken(type, value, start, end)` (part_004 constructor), a fresh
plain token with all effect state inactive. -/
def freshToken (ty : String) (v : List Char) (s e : Nat) : VimToken :=
  { type := ty, value := v, start := s, endPos := e }

/-- `VimToken.copy(newType, newValue, newStart, newEnd)` (part_004): an
independent plain token preserving `prismClasses` and resetting all effect
state. -/
def VimToken.copy (t : VimToken) (newType : String) (newValue : List Char)
    (newStart newEnd : Nat) : VimToken :=
  { freshToken newType newValue newStart newEnd with prismClasses := t.prismClasses }

/-- `VisualEffectsProcessor.createToken` (neovim-simulator.js): uses the
original token's `copy` when present, otherwise builds a fresh token
(`prismClasses` preserved from the original in every branch). -/
def createToken (ty : String) (v : List Char) (s e : Nat)
    (originalToken : Option VimToken) : VimToken :=
  match originalToken with
  | some o => o.copy ty v s e
  | none => freshToken ty v s e

/-! ### Tokenizer adapter (`convertPrismTokensToVim`, part_004) -/

/-- `shouldPreserveStructure` (part_004): requires a truthy `type`; then
either a member of the fixed preserve list or array-valued content. -/
def alwaysPreserveTypes : List String :=
  ["atrule", "url", "tag", "function", "selector", "property", "important", "rule"]

def shouldPreserveStructure : PrismNode → Bool
  | .str _ => false
  | .node ty _ content =>
    if ty = "" then false
    else if alwaysPreserveTypes.contains ty then true
    else match content with
      | .ofList _ => true
      | .ofStr _ => false

/-- `VimToken.fromPrismToken` (part_004): value is the content when it is a
string (else `''`); classes are the deduplicated `['token', type] ++ aliases`
when `type` is truthy. -/
def fromPrismToken : PrismNode → Nat → Nat → VimToken
  | .str v, s, e => freshToken "text" v s e
  | .node ty al content, s, e =>
    let value := match content with
      | .ofStr v => v
      | .ofList _ => []
    { freshToken (if ty = "" then "text" else ty) value s e with
      prismClasses := if ty = "" then [] else ("token" :: ty :: al).dedup }

/-- `new ComplexVimToken(type, value, start, end, token, token)` followed by
the `prismClasses` assignment in `convertPrismTokensToVim` (part_004);
`canBeSplit()` reports `false` for complex tokens. -/
def mkComplexVimToken (ty : String) (al : List String) (v : List Char)
    (s e : Nat) (nested : PrismNode) : VimToken :=
  { freshToken ty v s e with
    isComplex := true
    canBeSplit := false
    nestedStructure := some nested
    prismClasses := "token" :: ty :: al }

/-- The per-node body of `convertPrismTokensToVim.processToken` (part_004):
returns the emitted tokens and the advanced running cursor. -/
def processToken (t : PrismNode) (currentPos : Nat) : List VimToken × Nat :=
  match t with
  | .str s =>
    if 0 < s.length then
      if s = ['\n'] then
        ([freshToken "newline" s currentPos (currentPos + s.length)], currentPos + s.length)
      else
        ([freshToken "text" s currentPos (currentPos + s.length)], currentPos + s.length)
    else ([], currentPos)
  | .node ty al content =>
    let tokenText := extractContentText content
    -- `if (!tokenText) return currentPos` — empty extracted text is skipped
    if tokenText = [] then ([], currentPos)
    else
      let startPos := currentPos
      let endPos := startPos + tokenText.length
      if shouldPreserveStructure (.node ty al content) then
        match content with
        | .ofList _ =>
          ([mkComplexVimToken (if ty = "" then "text" else ty) al tokenText
              startPos endPos (.node ty al content)], endPos)
        | .ofStr _ =>
          ([{ fromPrismToken (.node ty al content) startPos endPos with canBeSplit := false }],
           endPos)
      else
        ([fromPrismToken (.node ty al content) startPos endPos], endPos)

/-- The `for (const token of prismTokens)` loop of `convertPrismTokensToVim`. -/
def processAll : List PrismNode → Nat → List VimToken × Nat
  | [], pos => ([], pos)
  | t :: ts, pos =>
    let r := processToken t pos
    let rest := processAll ts r.2
    (r.1 ++ rest.1, rest.2)

/-- `convertPrismTokensToVim(prismTokens, originalCode)` (part_004): walk all
top-level nodes, then append one trailing `text` token for any remainder the
running cursor did not reach. -/
def convertPrismTokensToVim (prismTokens : List PrismNode) (originalCode : List Char) :
    List VimToken :=
  let r := processAll prismTokens 0
  if r.2 < originalCode.length then
    r.1 ++ [freshToken "text" (originalCode.drop r.2) r.2 originalCode.length]
  else r.1

/-- `fallbackTokenize(code)` (part_004): a single whole-text token. -/
def fallbackTokenize (code : List Char) : List VimToken :=
  [freshToken "text" code 0 code.length]

/-- `PrismVimHighlighter.tokenize(code)` (part_004).  The external
`Prism.tokenize` call is a black box passed in as `prismResult`: `.error`
models the call throwing, `useFallback` models a missing tokenizer/grammar.
The `catch` branch and the fallback mode both degrade to `fallbackTokenize`. -/
def tokenize (code : List Char) (prismResult : Except Unit (List PrismNode))
    (useFallback : Bool) : List VimToken :=
  if useFallback then fallbackTokenize code
  else
    match prismResult with
    | .error _ => fallbackTokenize code
    | .ok prismTokens => convertPrismTokensToVim prismTokens code

/-! ### Effect engine (`VisualEffectsProcessor`, neovim-simulator.js)

Each JS loop mutates the shallow-copied `result` array by `splice`-replacing
the processed token with its fragments and stepping the index past them, or
by early-returning once an effect is placed.  The splice-and-skip loop of
`applySelection` is exactly `List.flatMap` of the per-token body; the
early-return search loops of the cursor operations are the `Option`-valued
first-match recursions below. -/

/-- The complex-token branch of `applySimpleCursor` / `applyInsertCursor`
(neovim-simulator.js lines 87-96 and 219-229): the token object itself is
marked in place with the partial-cursor state (the cached
`preRenderedHtml` string is renderer output and is not stored, see header). -/
def markPartialCursor (t : VimToken) (position : Nat) (cursorClass : String) : VimToken :=
  { t with hasPartialCursor := true
           partialCursorPosition := position
           partialCursorClass := cursorClass }

/-- `VisualEffectsProcessor.splitTokenSimple` (neovim-simulator.js 122-175).
The JS guard `relativePos < 0 || relativePos >= value.length` is rendered on
ℕ as `position < token.start ∨ value.length ≤ position - token.start`. -/
def splitTokenSimple (token : VimToken) (position : Nat) (cursorClass : String) :
    List VimToken :=
  let value := token.value
  if position < token.start ∨ value.length ≤ position - token.start then [token]
  else
    let relativePos := position - token.start
    let before : List VimToken :=
      if 0 < relativePos then
        [createToken token.type (value.take relativePos) token.start
          (token.start + relativePos) (some token)]
      else []
    let cursorToken :=
      { createToken token.type ((value.drop relativePos).take 1) position (position + 1)
          (some token) with cursor := some cursorClass }
    let after : List VimToken :=
      if relativePos < value.length - 1 then
        [createToken token.type (value.drop (relativePos + 1)) (position + 1) token.endPos
          (some token)]
      else []
    before ++ cursorToken :: after

/-- The empty cursor token `createToken('cursor', '', position, position)`
with `cursor = cursorClass`, as built by `createStandaloneCursor`,
`createStandaloneInsertCursor`, `splitTokenForInsert` and the boundary cases
of `applyInsertCursor`. -/
def emptyCursorToken (position : Nat) (cursorClass : String) : VimToken :=
  { createToken "cursor" [] position position none with cursor := some cursorClass }

/-- The insertion-index scan shared by `createStandaloneCursor` and
`createStandaloneInsertCursor` (neovim-simulator.js 180-198 and 321-339):
insert before the first token whose `start` exceeds `position`, else at the
end. -/
def insertAtPosition : List VimToken → VimToken → Nat → List VimToken
  | [], c, _ => [c]
  | t :: ts, c, position =>
    if position < t.start then c :: t :: ts
    else t :: insertAtPosition ts c position

/-- `VisualEffectsProcessor.createStandaloneCursor` (neovim-simulator.js
180-198). -/
def createStandaloneCursor (result : List VimToken) (position : Nat)
    (cursorClass : String) : List VimToken :=
  insertAtPosition result (emptyCursorToken position cursorClass) position

/-- The `for` loop of `applySimpleCursor`: the first token with
`start <= position < end` is replaced (complex tokens are marked in place,
simple tokens are split) and the loop returns. -/
def simpleCursorGo (position : Nat) (cursorClass : String) :
    List VimToken → Option (List VimToken)
  | [] => none
  | token :: rest =>
    if token.start ≤ position ∧ position < token.endPos then
      some ((if token.isComplex then [markPartialCursor token position cursorClass]
             else splitTokenSimple token position cursorClass) ++ rest)
    else (simpleCursorGo position cursorClass rest).map (token :: ·)

/-- `VisualEffectsProcessor.applySimpleCursor` (neovim-simulator.js 73-117):
Normal-mode cursor; falls back to a standalone zero-width cursor when no
token contains the position. -/
def applySimpleCursor (tokens : List VimToken) (position : Nat)
    (cursorClass : String) : List VimToken :=
  match simpleCursorGo position cursorClass tokens with
  | some r => r
  | none => createStandaloneCursor tokens position cursorClass

/-- `VisualEffectsProcessor.splitTokenForInsert` (neovim-simulator.js
274-316).  The JS guard `relativePos <= 0 || relativePos >= value.length` is
rendered on ℕ as `position ≤ token.start ∨ value.length ≤ position - token.start`. -/
def splitTokenForInsert (token : VimToken) (position : Nat) (cursorClass : String) :
    List VimToken :=
  let value := token.value
  if position ≤ token.start ∨ value.length ≤ position - token.start then [token]
  else
    let relativePos := position - token.start
    let beforeToken := createToken token.type (value.take relativePos) token.start
      (token.start + relativePos) (some token)
    let afterToken := createToken token.type (value.drop relativePos) position
      token.endPos (some token)
    [beforeToken, emptyCursorToken position cursorClass, afterToken]

/-- `VisualEffectsProcessor.createStandaloneInsertCursor` (neovim-simulator.js
321-339): identical to `createStandaloneCursor`. -/
def createStandaloneInsertCursor (result : List VimToken) (position : Nat)
    (cursorClass : String) : List VimToken :=
  insertAtPosition result (emptyCursorToken position cursorClass) position

/-- The `for` loop of `applyInsertCursor` (neovim-simulator.js 211-264):
per token, in order — strictly inside splits (complex tokens are marked in
place), `position == start` inserts the zero-width cursor before,
`position == end` inserts it after; first match returns. -/
def insertCursorGo (position : Nat) (cursorClass : String) :
    List VimToken → Option (List VimToken)
  | [] => none
  | token :: rest =>
    if token.start < position ∧ position < token.endPos then
      some ((if token.isComplex then [markPartialCursor token position cursorClass]
             else splitTokenForInsert token position cursorClass) ++ rest)
    else if position = token.start then
      some (emptyCursorToken position cursorClass :: token :: rest)
    else if position = token.endPos then
      some (token :: emptyCursorToken position cursorClass :: rest)
    else (insertCursorGo position cursorClass rest).map (token :: ·)

/-- `VisualEffectsProcessor.applyInsertCursor` (neovim-simulator.js 205-269). -/
def applyInsertCursor (tokens : List VimToken) (position : Nat)
    (cursorClass : String) : List VimToken :=
  match insertCursorGo position cursorClass tokens with
  | some r => r
  | none => createStandaloneInsertCursor tokens position cursorClass

/-- The complex-token branch of `applySelection` (neovim-simulator.js
607-615), taken unconditionally because `shouldSplitComplexToken` always
returns `true`: the token object is marked in place for character-level
partial-selection rendering and its whole-token flags are cleared. -/
def markPartialSelection (t : VimToken) (overlapStart overlapEnd
    lastSelectedPosition : Nat) : VimToken :=
  { t with hasPartialSelection := true
           partialSelectionStart := overlapStart
           partialSelectionEnd := overlapEnd
           partialLastSelectedPosition := lastSelectedPosition
           selected := false
           isLastSelectedChar := false }

/-- `VisualEffectsProcessor.applySelectionToComplexToken` (neovim-simulator.js
687-699): whole-token selection, in place; the block-cursor flag is set when
the last selected position falls inside the token's span. -/
def applySelectionToComplexToken (t : VimToken) (lastSelectedPosition : Nat) : VimToken :=
  { t with selected := true
           isLastSelectedChar :=
             if t.start ≤ lastSelectedPosition ∧ lastSelectedPosition < t.endPos then true
             else t.isLastSelectedChar }

/-- `VisualEffectsProcessor.splitTokenForSelection` (neovim-simulator.js
701-800), called with the overlap of the token's span and the selection. -/
def splitTokenForSelection (token : VimToken) (selectionStart selectionEnd
    lastSelectedPosition : Nat) : List VimToken :=
  let value := token.value
  let before : List VimToken :=
    if token.start < selectionStart then
      [createToken token.type (value.take (selectionStart - token.start)) token.start
        selectionStart (some token)]
    else []
  -- `Math.max(0, selectionStart - token.start)` is truncated subtraction on ℕ
  let selectionStartInToken := selectionStart - token.start
  let selectionEndInToken := min value.length (selectionEnd - token.start)
  let selectionValue :=
    (value.drop selectionStartInToken).take (selectionEndInToken - selectionStartInToken)
  let mids : List VimToken :=
    if selectionValue = [] then []
    else
      let actualSelectionStart := max token.start selectionStart
      let actualSelectionEnd := min token.endPos selectionEnd
      if actualSelectionStart ≤ lastSelectedPosition ∧
          lastSelectedPosition < actualSelectionEnd then
        let lastCharRelativePos := lastSelectedPosition - actualSelectionStart
        let beforeLast : List VimToken :=
          if 0 < lastCharRelativePos then
            [{ createToken token.type (selectionValue.take lastCharRelativePos)
                actualSelectionStart (actualSelectionStart + lastCharRelativePos)
                (some token) with selected := true }]
          else []
        let lastFrag : List VimToken :=
          match (selectionValue.drop lastCharRelativePos).head? with
          | some c =>
            [{ createToken token.type [c] lastSelectedPosition (lastSelectedPosition + 1)
                (some token) with selected := true, isLastSelectedChar := true }]
          | none => []
        let afterLast : List VimToken :=
          let remainingSelection := selectionValue.drop (lastCharRelativePos + 1)
          if remainingSelection = [] then []
          else
            [{ createToken token.type remainingSelection (lastSelectedPosition + 1)
                actualSelectionEnd (some token) with selected := true }]
        beforeLast ++ lastFrag ++ afterLast
      else
        [{ createToken token.type selectionValue actualSelectionStart actualSelectionEnd
            (some token) with selected := true }]
  let after : List VimToken :=
    if selectionEnd < token.endPos then
      [createToken token.type (value.drop (selectionEnd - token.start)) selectionEnd
        token.endPos (some token)]
    else []
  before ++ mids ++ after

/-- The per-token body of the `applySelection` loop (neovim-simulator.js
594-644). -/
def selectOne (selectionStart selectionEnd lastSelectedPosition : Nat)
    (token : VimToken) : List VimToken :=
  if token.start < selectionEnd ∧ selectionStart < token.endPos then
    let overlapStart := max token.start selectionStart
    let overlapEnd := min token.endPos selectionEnd
    if overlapStart < overlapEnd then
      if token.isComplex then
        [markPartialSelection token overlapStart overlapEnd lastSelectedPosition]
      else if token.canBeSplit = false then
        if overlapStart ≤ token.start ∧ token.endPos ≤ overlapEnd then
          [applySelectionToComplexToken token lastSelectedPosition]
        else splitTokenForSelection token overlapStart overlapEnd lastSelectedPosition
      else splitTokenForSelection token overlapStart overlapEnd lastSelectedPosition
    else [token]
  else [token]

/-- `VisualEffectsProcessor.applySelection` (neovim-simulator.js 583-647):
empty or inverted ranges return the tokens unchanged; otherwise every token
is processed by the loop body. -/
def applySelection (tokens : List VimToken) (selectionStart selectionEnd : Nat) :
    List VimToken :=
  if selectionEnd ≤ selectionStart then tokens
  else tokens.flatMap (selectOne selectionStart selectionEnd (selectionEnd - 1))

/-- `processNormalMode` / `processInsertMode` / `processVisualMode` and the
`process` dispatcher (neovim-simulator.js 48-67). -/
def process (tokens : List VimToken) (mode : String)
    (selectionStart selectionEnd : Nat) : List VimToken :=
  if mode = "normal" then applySimpleCursor tokens selectionStart "cursor"
  else if mode = "insert" then applyInsertCursor tokens selectionStart "cursor-insert"
  else if mode = "visual" then applySelection tokens selectionStart selectionEnd
  else tokens

/-! ### Character-level observation of selection effects

Which characters display as selected / block-cursor is decided by the
renderer: a flat token's flags cover its whole span
(`TokenRenderer.getTokenClasses`, neovim-simulator.js 1025-1057), while a
token marked `hasPartialSelection` delegates to
`ComplexVimToken.renderWithPartialSelection` (part_004 266-272), i.e. to the
per-character walk `renderTokenStructureWithSelection` (part_004 437-492)
over the nested structure, or `applySimplePartialSelection` (part_004
328-355) over the plain value when there is no nested structure.  The walks
are embedded below with the emitted HTML abstracted to one mark per visible
character. -/

inductive SelMark where
  | plain : SelMark
  | sel : SelMark
  | block : SelMark
deriving DecidableEq

/-- The per-character rule shared by `renderTokenStructureWithSelection` and
`applySimplePartialSelection`: a character at absolute position `p` inside
`[selectionStart, selectionEnd)` is wrapped in `visual-block-cursor` when
`p = lastSelectedPosition` and in `visual-selection` otherwise. -/
def selMark (selectionStart selectionEnd lastSelectedPosition p : Nat) : SelMark :=
  if selectionStart ≤ p ∧ p < selectionEnd then
    if p = lastSelectedPosition then .block else .sel
  else .plain

/-- The character loop of the selection walks over one string, starting at
absolute position `pos`. -/
def strSelMarks (s e last : Nat) : List Char → Nat → List SelMark
  | [], _ => []
  | _ :: cs, pos => selMark s e last pos :: strSelMarks s e last cs (pos + 1)

mutual

/-- `renderTokenStructureWithSelection` (part_004 437-492), abstracted to the
marks of the visible characters; positions advance by
`calculateContentLength` exactly as in the source. -/
def nodeSelMarks (s e last : Nat) : PrismNode → Nat → List SelMark
  | .str cs, pos => strSelMarks s e last cs pos
  | .node _ _ c, pos => contentSelMarks s e last c pos

def contentSelMarks (s e last : Nat) : PrismContent → Nat → List SelMark
  | .ofStr cs, pos => strSelMarks s e last cs pos
  | .ofList l, pos => listSelMarks s e last l pos

def listSelMarks (s e last : Nat) : PrismNodeList → Nat → List SelMark
  | .nil, _ => []
  | .cons n ns, pos =>
    nodeSelMarks s e last n pos ++ listSelMarks s e last ns (pos + calculateContentLength n)

end

/-- The selection marks a token with `hasPartialSelection` renders for its
characters, via `renderWithPartialSelection` (part_004 266-272): the
structure walk when a nested structure is present, the plain value walk
otherwise. -/
def tokenSelMarks (t : VimToken) : List SelMark :=
  match t.nestedStructure with
  | some st =>
    nodeSelMarks t.partialSelectionStart t.partialSelectionEnd
      t.partialLastSelectedPosition st t.start
  | none =>
    strSelMarks t.partialSelectionStart t.partialSelectionEnd
      t.partialLastSelectedPosition t.value t.start

/-- Does token `t` display the character at absolute offset `p` as part of
the selection (plain `visual-selection` or the block cursor)?  A flat flagged
token covers its whole span; a partial-selection token delegates to the
character walk. -/
def selAt (t : VimToken) (p : Nat) : Bool :=
  if t.hasPartialSelection then
    decide (t.start ≤ p) &&
      (match (tokenSelMarks t).getD (p - t.start) .plain with
       | .plain => false
       | _ => true)
  else t.selected && decide (t.start ≤ p) && decide (p < t.endPos)

/-- Does token `t` display the character at absolute offset `p` with the
block cursor (`isLastSelectedChar` / the `.block` mark)? -/
def lastAt (t : VimToken) (p : Nat) : Bool :=
  if t.hasPartialSelection then
    decide (t.start ≤ p) &&
      decide ((tokenSelMarks t).getD (p - t.start) .plain = .block)
  else t.isLastSelectedChar && decide (t.start ≤ p) && decide (p < t.endPos)

/-- Some token of the sequence displays offset `p` as selected. -/
def anySelAt (ts : List VimToken) (p : Nat) : Bool := ts.any (selAt · p)

/-- Some token of the sequence displays offset `p` with the block cursor. -/
def anyLastAt (ts : List VimToken) (p : Nat) : Bool := ts.any (lastAt · p)

/-- A token carries a cursor effect: the `cursor` field (rendered as a cursor
class by `getTokenClasses`) or the render-time partial-cursor mark of a
complex token. -/
def cursorEffect (t : VimToken) : Bool := t.cursor.isSome || t.hasPartialCursor

/-- Concatenated visible content of a token sequence. -/
def concatValues (ts : List VimToken) : List Char := ts.flatMap (·.value)

/-! ### Well-formedness of tokenizer output

The spec's invariants on freshly tokenized sequences (§3): spans sorted,
contiguous, `end - start = content.length`, no effect state, and a complex
token's nested structure flattens back to its value. -/

/-- All effect state inactive (the state of every freshly created token). -/
def cleanToken (t : VimToken) : Bool :=
  t.cursor.isNone && !t.selected && !t.isLastSelectedChar &&
    !t.hasPartialSelection && !t.hasPartialCursor

/-- Span length matches content length, and a nested structure (when
present) flattens to the value. -/
def wfToken (t : VimToken) : Bool :=
  (t.endPos == t.start + t.value.length) &&
    (match t.nestedStructure with
     | some st => extractTokenText st == t.value
     | none => true)

/-- `partitionFrom pos ts L`: the tokens tile `[pos, L)` contiguously, each
clean and well-formed. -/
def partitionFrom : Nat → List VimToken → Nat → Bool
  | pos, [], L => pos == L
  | pos, t :: ts, L =>
    (t.start == pos) && cleanToken t && wfToken t && partitionFrom t.endPos ts L

/-! ### Well-typedness of external tokenizer nodes

The external interface (spec §6) types nodes as `{type: string, ...}`; the
adapter additionally relies on array-valued content coming with a non-empty
`type` (an array-content node with a falsy type would fall through
`shouldPreserveStructure` into `fromPrismToken`, which only reads string
content).  `nodeWellTyped` records that conformance condition. -/

def nodeWellTyped : PrismNode → Bool
  | .str _ => true
  | .node ty _ content =>
    match content with
    | .ofList _ => !(ty == "")
    | .ofStr _ => true

/-- Flattened text of the external tokenizer's whole top-level output. -/
def flattenTop (ts : List PrismNode) : List Char := ts.flatMap extractTokenText

/-! ### Concrete demonstration inputs (used by witnesses and counterexamples) -/

def demoText : VimToken :=
  { uid := 1, type := "text", value := ['a', 'b'], start := 0, endPos := 2 }

def demoKeyword : VimToken :=
  { uid := 2, type := "keyword", value := ['c', 'd', 'e'], start := 2, endPos := 5,
    prismClasses := ["token", "keyword"] }

def demoNode : PrismNode :=
  .node "tag" [] (.ofList (.cons (.str ['<', 'a']) (.cons (.str ['>']) .nil)))

def demoComplex : VimToken :=
  { mkComplexVimToken "tag" [] ['<', 'a', '>'] 0 3 demoNode with uid := 7 }

/-- A flat token of a structure-preserved type with string content, marked
`canBeSplit = () => false` by the adapter (e.g. a CSS `property`). -/
def demoNonSplittable : VimToken :=
  { uid := 3, type := "property", value := ['a', 'b'], start := 0, endPos := 2,
    canBeSplit := false, prismClasses := ["token", "property"] }

def demoTokens : List VimToken := [demoText, demoKeyword]

def demoPrismNodes : List PrismNode :=
  [.str ['v', 'a', 'r', ' '], .node "keyword" [] (.ofStr ['x'])]

/-! ## Theorems -/

/-! ### Helper lemmas about token construction -/

theorem createToken_some (ty : String) (v : List Char) (s e : Nat) (o : VimToken) :
    createToken ty v s e (some o) =
      { type := ty, value := v, start := s, endPos := e, prismClasses := o.prismClasses } :=
  rfl

theorem createToken_none (ty : String) (v : List Char) (s e : Nat) :
    createToken ty v s e none = { type := ty, value := v, start := s, endPos := e } :=
  rfl

theorem createToken_value (ty : String) (v : List Char) (s e : Nat)
    (o : Option VimToken) : (createToken ty v s e o).value = v := by
  cases o <;> rfl

theorem take_one_middle (l : List Char) (i : Nat) :
    l.take i ++ ((l.drop i).take 1 ++ l.drop (i + 1)) = l := by
  have h1 : (l.drop i).take 1 ++ (l.drop i).drop 1 = l.drop i := List.take_append_drop 1 _
  have h2 : (l.drop i).drop 1 = l.drop (i + 1) := by
    rw [List.drop_drop]
  rw [← h2, h1, List.take_append_drop]

/-! ### Content preservation of the splitting primitives -/

theorem splitTokenSimple_concat (t : VimToken) (p : Nat) (cls : String) :
    concatValues (splitTokenSimple t p cls) = t.value := by
  unfold splitTokenSimple
  by_cases hg : p < t.start ∨ t.value.length ≤ p - t.start
  · simp [hg, concatValues]
  · simp only [hg, if_false]
    by_cases hb : 0 < p - t.start <;>
      by_cases ha : p - t.start < t.value.length - 1 <;>
        simp only [hb, ha, if_true, if_false, concatValues, List.flatMap_cons,
          List.flatMap_append, List.flatMap_nil, createToken_value, List.append_nil,
          List.nil_append]
    · exact take_one_middle t.value (p - t.start)
    · have hd : t.value.drop (p - t.start + 1) = [] := by
        apply List.drop_eq_nil_of_le; omega
      have := take_one_middle t.value (p - t.start)
      rw [hd, List.append_nil] at this
      rw [this]
    · have h0 : p - t.start = 0 := by omega
      have ht : t.value.take (p - t.start) = [] := by rw [h0]; rfl
      have := take_one_middle t.value (p - t.start)
      rw [ht, List.nil_append] at this
      rw [this]
    · have h0 : p - t.start = 0 := by omega
      have hd : t.value.drop (p - t.start + 1) = [] := by
        apply List.drop_eq_nil_of_le; omega
      have ht : t.value.take (p - t.start) = [] := by rw [h0]; rfl
      have := take_one_middle t.value (p - t.start)
      rw [hd, List.append_nil, ht, List.nil_append] at this
      rw [this]

theorem splitTokenForInsert_concat (t : VimToken) (p : Nat) (cls : String) :
    concatValues (splitTokenForInsert t p cls) = t.value := by
  unfold splitTokenForInsert
  by_cases hg : p ≤ t.start ∨ t.value.length ≤ p - t.start
  · simp [hg, concatValues]
  · simp only [hg, if_false]
    simp [concatValues, createToken_value, emptyCursorToken, createToken_none]

theorem markPartialCursor_value (t : VimToken) (p : Nat) (cls : String) :
    (markPartialCursor t p cls).value = t.value := rfl

theorem emptyCursorToken_value (p : Nat) (cls : String) :
    (emptyCursorToken p cls).value = [] := rfl

theorem insertAtPosition_concat (ts : List VimToken) (c : VimToken) (p : Nat)
    (hc : c.value = []) : concatValues (insertAtPosition ts c p) = concatValues ts := by
  induction ts with
  | nil => simp [insertAtPosition, concatValues, hc]
  | cons t ts ih =>
    unfold insertAtPosition
    by_cases h : p < t.start
    · simp [h, concatValues, hc]
    · simp only [h, if_false]
      simp only [concatValues, List.flatMap_cons] at ih ⊢
      rw [ih]

theorem simpleCursorGo_concat (p : Nat) (cls : String) (ts r : List VimToken)
    (h : simpleCursorGo p cls ts = some r) : concatValues r = concatValues ts := by
  induction ts generalizing r with
  | nil => simp [simpleCursorGo] at h
  | cons t ts ih =>
    unfold simpleCursorGo at h
    by_cases hin : t.start ≤ p ∧ p < t.endPos
    · rw [if_pos hin] at h
      rw [Option.some.injEq] at h
      subst h
      have hsplit : ((splitTokenSimple t p cls).flatMap fun x => x.value) = t.value :=
        splitTokenSimple_concat t p cls
      by_cases hc : t.isComplex <;>
        simp [hc, concatValues, List.flatMap_append, markPartialCursor_value, hsplit]
    · rw [if_neg hin, Option.map_eq_some'] at h
      obtain ⟨r', hr', rfl⟩ := h
      simp only [concatValues, List.flatMap_cons]
      rw [show r'.flatMap (·.value) = concatValues r' from rfl, ih r' hr']
      rfl

theorem insertCursorGo_concat (p : Nat) (cls : String) (ts r : List VimToken)
    (h : insertCursorGo p cls ts = some r) : concatValues r = concatValues ts := by
  induction ts generalizing r with
  | nil => simp [insertCursorGo] at h
  | cons t ts ih =>
    unfold insertCursorGo at h
    by_cases hin : t.start < p ∧ p < t.endPos
    · rw [if_pos hin] at h
      rw [Option.some.injEq] at h
      subst h
      have hsplit : ((splitTokenForInsert t p cls).flatMap fun x => x.value) = t.value :=
        splitTokenForInsert_concat t p cls
      by_cases hc : t.isComplex <;>
        simp [hc, concatValues, List.flatMap_append, markPartialCursor_value, hsplit]
    · rw [if_neg hin] at h
      by_cases hs : p = t.start
      · rw [if_pos hs, Option.some.injEq] at h
        subst h
        simp [concatValues, emptyCursorToken, createToken_none]
      · rw [if_neg hs] at h
        by_cases he : p = t.endPos
        · rw [if_pos he, Option.some.injEq] at h
          subst h
          simp [concatValues, emptyCursorToken, createToken_none]
        · rw [if_neg he, Option.map_eq_some'] at h
          obtain ⟨r', hr', rfl⟩ := h
          simp only [concatValues, List.flatMap_cons]
          rw [show r'.flatMap (·.value) = concatValues r' from rfl, ih r' hr']
          rfl

/-- **C5.**  Cursor idempotence on content: `applyCursor(tokens, p, style)` —
i.e. the Normal-mode operation `applySimpleCursor` and the Insert-mode
operation `applyInsertCursor`, for every position and cursor style — returns
a sequence whose concatenated content equals the concatenated content of the
input sequence: splits and zero-width cursor insertions never add, drop or
change a visible character. -/
theorem cursor_ops_preserve_content (tokens : List VimToken) (position : Nat)
    (cursorClass : String) :
    concatValues (applySimpleCursor tokens position cursorClass) = concatValues tokens ∧
    concatValues (applyInsertCursor tokens position cursorClass) = concatValues tokens := by
  constructor
  · unfold applySimpleCursor
    cases hgo : simpleCursorGo position cursorClass tokens with
    | some r => exact simpleCursorGo_concat position cursorClass tokens r hgo
    | none =>
      exact insertAtPosition_concat tokens _ position (emptyCursorToken_value _ _)
  · unfold applyInsertCursor
    cases hgo : insertCursorGo position cursorClass tokens with
    | some r => exact insertCursorGo_concat position cursorClass tokens r hgo
    | none =>
      exact insertAtPosition_concat tokens _ position (emptyCursorToken_value _ _)

/-- **C6.**  `applySelection` with an empty or inverted range
(`selStart >= selEnd`) returns the input token sequence unchanged — a no-op,
not an error. -/
theorem applySelection_invalid_range_noop (tokens : List VimToken)
    (selectionStart selectionEnd : Nat) (h : selectionEnd ≤ selectionStart) :
    applySelection tokens selectionStart selectionEnd = tokens := by
  simp [applySelection, h]

/-- Witness for C6 at the claim's own inputs `(5, 5)` and `(8, 3)`. -/
theorem applySelection_invalid_range_noop_witness :
    (5 : Nat) ≤ 5 ∧ applySelection [demoText, demoKeyword] 5 5 = [demoText, demoKeyword] ∧
    (3 : Nat) ≤ 8 ∧ applySelection [demoText, demoKeyword] 8 3 = [demoText, demoKeyword] :=
  ⟨le_refl 5, applySelection_invalid_range_noop _ 5 5 (le_refl 5),
   by decide, applySelection_invalid_range_noop _ 8 3 (by decide)⟩

/-- **C7.**  If the underlying tokenizer call throws (`.error`) or the
tokenizer/grammar is unavailable (`useFallback`), `tokenize` does not
propagate the failure: it returns a single `text`-classified token whose
content is the entire input. -/
theorem tokenize_whole_text_fallback (code : List Char)
    (prismResult : Except Unit (List PrismNode)) (useFallback : Bool)
    (h : prismResult = .error () ∨ useFallback = true) :
    tokenize code prismResult useFallback =
      [{ type := "text", value := code, start := 0, endPos := code.length }] := by
  rcases h with h | h
  · subst h
    cases useFallback <;> simp [tokenize, fallbackTokenize, freshToken]
  · subst h
    simp [tokenize, fallbackTokenize, freshToken]

/-- Witness for C7: a throwing tokenizer call on input `"ab"`. -/
theorem tokenize_whole_text_fallback_witness :
    tokenize ['a', 'b'] (Except.error ()) false =
      [{ type := "text", value := ['a', 'b'], start := 0, endPos := 2 }] :=
  tokenize_whole_text_fallback ['a', 'b'] (Except.error ()) false (Or.inl rfl)

/-- **C8 counterexample.**  The claim states that applying any effect
operation to an empty token sequence returns an empty sequence, but the
Normal-mode cursor operation on an empty sequence falls through to
`createStandaloneCursor` and returns a one-element sequence holding a
zero-width standalone cursor token. -/
theorem effects_on_empty_counterexample :
    applySimpleCursor ([] : List VimToken) 0 "cursor" ≠ [] := by decide

/-- **C8 (amended).**  For the empty input text (tokenizer available and
yielding no nodes) `tokenize` returns an empty sequence; `applySelection` on
an empty sequence returns an empty sequence; the cursor and insert-cursor
operations on an empty sequence return a single zero-width standalone cursor
token carrying no visible characters — none of the operations errors. -/
theorem empty_input_behavior :
    tokenize [] (.ok []) false = [] ∧
    (∀ selectionStart selectionEnd : Nat,
      applySelection [] selectionStart selectionEnd = []) ∧
    (∀ (position : Nat) (cursorClass : String),
      applySimpleCursor [] position cursorClass = [emptyCursorToken position cursorClass] ∧
      applyInsertCursor [] position cursorClass = [emptyCursorToken position cursorClass] ∧
      concatValues (applySimpleCursor [] position cursorClass) = [] ∧
      concatValues (applyInsertCursor [] position cursorClass) = []) := by
  refine ⟨rfl, ?_, ?_⟩
  · intro s e
    by_cases h : e ≤ s <;> simp [applySelection, h]
  · intro position cursorClass
    exact ⟨rfl, rfl, rfl, rfl⟩

/-- **C3.**  For a flat token whose span contains the cursor position, the
Normal-mode split replaces it by up to three fragments: `[start, position)`
with identical content (the corresponding slice of the original) and
classification and no effect flags, `[position, position+1)` carrying the
cursor mark, and `[position+1, end)` again unchanged; empty fragments are
omitted, and exactly the single-character middle fragment carries the cursor
effect. -/
theorem normal_cursor_split_spec (t : VimToken) (p : Nat) (cls : String)
    (h1 : t.start ≤ p) (h2 : p < t.endPos)
    (hw : t.endPos = t.start + t.value.length) :
    (splitTokenSimple t p cls).map (fun u => (u.value, u.start, u.endPos)) =
      (if t.start < p then [(t.value.take (p - t.start), t.start, p)] else []) ++
      ((t.value.drop (p - t.start)).take 1, p, p + 1) ::
      (if p + 1 < t.endPos then [(t.value.drop (p - t.start + 1), p + 1, t.endPos)] else []) ∧
    (∀ u ∈ splitTokenSimple t p cls, u.type = t.type ∧ u.prismClasses = t.prismClasses) ∧
    (∀ u ∈ splitTokenSimple t p cls,
      (u.cursor = some cls ↔ (u.start = p ∧ u.endPos = p + 1))) ∧
    (∀ u ∈ splitTokenSimple t p cls, u.selected = false ∧ u.isLastSelectedChar = false ∧
      u.hasPartialCursor = false ∧ u.hasPartialSelection = false) := by
  have hg : ¬(p < t.start ∨ t.value.length ≤ p - t.start) := by omega
  have e1 : (0 < p - t.start) ↔ (t.start < p) := by omega
  have e2 : (p - t.start < t.value.length - 1) ↔ (p + 1 < t.endPos) := by omega
  have e3 : t.start + (p - t.start) = p := by omega
  unfold splitTokenSimple
  rw [if_neg hg]
  by_cases hb : t.start < p <;> by_cases ha : p + 1 < t.endPos <;>
    simp only [e1, e2, hb, ha, if_true, if_false] <;>
    refine ⟨?_, ?_, ?_, ?_⟩ <;>
      simp [createToken_some, e3, List.mem_append]

/-- Witness for C3: the keyword token `"cde"` over `[2, 5)` with the cursor
at offset 3. -/
theorem normal_cursor_split_spec_witness :
    demoKeyword.start ≤ 3 ∧ 3 < demoKeyword.endPos ∧
    demoKeyword.endPos = demoKeyword.start + demoKeyword.value.length ∧
    (splitTokenSimple demoKeyword 3 "cursor").map (fun u => (u.value, u.start, u.endPos)) =
      (if demoKeyword.start < 3 then
        [(demoKeyword.value.take (3 - demoKeyword.start), demoKeyword.start, 3)] else []) ++
      ((demoKeyword.value.drop (3 - demoKeyword.start)).take 1, 3, 3 + 1) ::
      (if 3 + 1 < demoKeyword.endPos then
        [(demoKeyword.value.drop (3 - demoKeyword.start + 1), 3 + 1, demoKeyword.endPos)]
       else []) :=
  ⟨by decide, by decide, by decide,
   (normal_cursor_split_spec demoKeyword 3 "cursor" (by decide) (by decide) (by decide)).1⟩

/-! ### C1: round-trip of the tokenizer adapter -/

theorem processToken_spec (n : PrismNode) (pos : Nat) (h : nodeWellTyped n = true) :
    concatValues (processToken n pos).1 = extractTokenText n ∧
    (processToken n pos).2 = pos + (extractTokenText n).length := by
  cases n with
  | str s =>
    by_cases hl : 0 < s.length
    · by_cases hn : s = ['\n'] <;>
        simp [processToken, hl, hn, concatValues, freshToken, extractTokenText]
    · have : s = [] := by
        cases s with
        | nil => rfl
        | cons a l => simp at hl
      subst this
      simp [processToken, concatValues, extractTokenText]
  | node ty al content =>
    by_cases he : extractContentText content = []
    · simp [processToken, he, concatValues, extractTokenText]
    · by_cases hp : shouldPreserveStructure (.node ty al content) = true
      · cases content with
        | ofList l =>
          simp [processToken, he, hp, concatValues, mkComplexVimToken, freshToken,
            extractTokenText]
        | ofStr v =>
          simp only [extractContentText] at he
          simp [processToken, he, hp, concatValues, fromPrismToken, freshToken,
            extractTokenText, extractContentText]
      · cases content with
        | ofList l =>
          -- excluded: a well-typed array-content node always preserves structure
          exfalso
          simp [nodeWellTyped] at h
          simp [shouldPreserveStructure, h, alwaysPreserveTypes] at hp
        | ofStr v =>
          simp only [extractContentText] at he
          simp [processToken, he, hp, concatValues, fromPrismToken, freshToken,
            extractTokenText, extractContentText]

theorem processAll_spec (ts : List PrismNode) (pos : Nat)
    (h : ∀ n ∈ ts, nodeWellTyped n = true) :
    concatValues (processAll ts pos).1 = flattenTop ts ∧
    (processAll ts pos).2 = pos + (flattenTop ts).length := by
  induction ts generalizing pos with
  | nil => simp [processAll, concatValues, flattenTop]
  | cons n ns ih =>
    have hn := h n (List.mem_cons_self n ns)
    have hns : ∀ m ∈ ns, nodeWellTyped m = true := fun m hm => h m (List.mem_cons_of_mem n hm)
    obtain ⟨hv, hp⟩ := processToken_spec n pos hn
    obtain ⟨hv', hp'⟩ := ih (processToken n pos).2 hns
    constructor
    · simp only [processAll, concatValues, List.flatMap_append, flattenTop, List.flatMap_cons]
      rw [show ((processToken n pos).1.flatMap fun x => x.value) = extractTokenText n from hv,
        show ((processAll ns (processToken n pos).2).1.flatMap fun x => x.value) =
          flattenTop ns from hv']
      rfl
    · simp only [processAll, flattenTop, List.flatMap_cons]
      rw [hp', hp]
      simp [flattenTop, List.length_append]
      omega

/-- **C1.**  Round-trip: when the external tokenizer's flattened output is a
prefix of the input text (full coverage or under-coverage; the spec treats
under-coverage as the recoverable case repaired by the trailing remainder
token) and its nodes are well-typed, concatenating the content of all tokens
returned by `tokenize` reproduces the input text exactly. -/
theorem tokenize_round_trip (code : List Char) (prismTokens : List PrismNode)
    (hwt : ∀ n ∈ prismTokens, nodeWellTyped n = true)
    (hpre : flattenTop prismTokens <+: code) :
    concatValues (tokenize code (.ok prismTokens) false) = code := by
  obtain ⟨hv, hp⟩ := processAll_spec prismTokens 0 hwt
  have htake : flattenTop prismTokens = code.take (flattenTop prismTokens).length :=
    List.prefix_iff_eq_take.mp hpre
  simp only [tokenize, if_neg (Bool.false_ne_true), convertPrismTokensToVim]
  by_cases hrem : (processAll prismTokens 0).2 < code.length
  · rw [if_pos hrem]
    simp only [concatValues, List.flatMap_append, List.flatMap_cons, List.flatMap_nil,
      List.append_nil, freshToken]
    rw [show ((processAll prismTokens 0).1.flatMap fun x => x.value) =
      flattenTop prismTokens from hv, hp]
    conv_rhs => rw [← List.take_append_drop ((flattenTop prismTokens).length) code]
    rw [← htake]
    simp
  · rw [if_neg hrem]
    rw [show concatValues (processAll prismTokens 0).1 = flattenTop prismTokens from hv]
    have hlen : (flattenTop prismTokens).length = code.length := by
      have := hpre.length_le
      omega
    rw [htake, hlen, List.take_length]

/-- Witness for C1: tokenizer output `["var ", keyword "x"]` under-covers
`"var x = 1"`; the remainder `" = 1"` is repaired by the trailing text
token. -/
theorem tokenize_round_trip_witness :
    (∀ n ∈ demoPrismNodes, nodeWellTyped n = true) ∧
    flattenTop demoPrismNodes <+: ("var x = 1".toList) ∧
    concatValues (tokenize ("var x = 1".toList) (.ok demoPrismNodes) false) =
      "var x = 1".toList :=
  ⟨by decide, by decide,
   tokenize_round_trip ("var x = 1".toList) demoPrismNodes (by decide) (by decide)⟩

/-! ### Partition helper lemmas -/

theorem partitionFrom_nil {pos L : Nat} (h : partitionFrom pos [] L = true) : pos = L := by
  simpa [partitionFrom] using h

theorem partitionFrom_cons {pos L : Nat} {t : VimToken} {ts : List VimToken}
    (h : partitionFrom pos (t :: ts) L = true) :
    t.start = pos ∧ cleanToken t = true ∧ wfToken t = true ∧
      partitionFrom t.endPos ts L = true := by
  simp only [partitionFrom, Bool.and_eq_true, beq_iff_eq] at h
  exact ⟨h.1.1.1, h.1.1.2, h.1.2, h.2⟩

theorem wfToken_span {t : VimToken} (h : wfToken t = true) :
    t.endPos = t.start + t.value.length := by
  simp only [wfToken, Bool.and_eq_true, beq_iff_eq] at h
  exact h.1

theorem cleanToken_flags {t : VimToken} (h : cleanToken t = true) :
    t.cursor = none ∧ t.selected = false ∧ t.isLastSelectedChar = false ∧
      t.hasPartialSelection = false ∧ t.hasPartialCursor = false := by
  simp only [cleanToken, Bool.and_eq_true, Option.isNone_iff_eq_none,
    Bool.not_eq_true'] at h
  exact ⟨h.1.1.1.1, h.1.1.1.2, h.1.1.2, h.1.2, h.2⟩

/-! ### C4: the three insert-cursor cases -/

theorem insertCursorGo_cases (p : Nat) (cls : String) (L : Nat) :
    ∀ (ts : List VimToken) (pos : Nat), partitionFrom pos ts L = true →
    (∀ t ∈ ts, t.isComplex = false) → pos ≤ p → p ≤ L → ts ≠ [] →
    (∃ pre t post, ts = pre ++ t :: post ∧ t.start < p ∧ p < t.endPos ∧
       insertCursorGo p cls ts = some (pre ++
         createToken t.type (t.value.take (p - t.start)) t.start p (some t) ::
         emptyCursorToken p cls ::
         createToken t.type (t.value.drop (p - t.start)) p t.endPos (some t) :: post)) ∨
    (∃ pre t post, ts = pre ++ t :: post ∧ p = t.start ∧
       insertCursorGo p cls ts = some (pre ++ emptyCursorToken p cls :: t :: post)) ∨
    (∃ pre t post, ts = pre ++ t :: post ∧ p = t.endPos ∧
       insertCursorGo p cls ts = some (pre ++ t :: emptyCursorToken p cls :: post)) := by
  intro ts
  induction ts with
  | nil => intro pos _ _ _ _ hne; exact absurd rfl hne
  | cons t ts ih =>
    intro pos hPart hflat hpos hp _
    obtain ⟨hstart, _, hwf, hrest⟩ := partitionFrom_cons hPart
    have hspan := wfToken_span hwf
    have hflatt : t.isComplex = false := hflat t (List.mem_cons_self t ts)
    by_cases hin : t.start < p ∧ p < t.endPos
    · left
      refine ⟨[], t, ts, rfl, hin.1, hin.2, ?_⟩
      have hg : ¬(p ≤ t.start ∨ t.value.length ≤ p - t.start) := by omega
      have e3 : t.start + (p - t.start) = p := by omega
      have hsf : splitTokenForInsert t p cls =
          [createToken t.type (t.value.take (p - t.start)) t.start p (some t),
           emptyCursorToken p cls,
           createToken t.type (t.value.drop (p - t.start)) p t.endPos (some t)] := by
        simp only [splitTokenForInsert]
        rw [if_neg hg, e3]
      unfold insertCursorGo
      rw [if_pos hin]
      simp [hflatt, hsf]
    · by_cases hs : p = t.start
      · right; left
        refine ⟨[], t, ts, rfl, hs, ?_⟩
        unfold insertCursorGo
        rw [if_neg hin, if_pos hs]
        simp
      · by_cases he : p = t.endPos
        · right; right
          refine ⟨[], t, ts, rfl, he, ?_⟩
          unfold insertCursorGo
          rw [if_neg hin, if_neg hs, if_pos he]
          simp
        · -- the head token is strictly left of the position: recurse
          have hgt : t.endPos < p := by omega
          have hne' : ts ≠ [] := by
            intro hnil
            subst hnil
            have := partitionFrom_nil hrest
            omega
          have hflat' : ∀ u ∈ ts, u.isComplex = false :=
            fun u hu => hflat u (List.mem_cons_of_mem t hu)
          have hrec := ih t.endPos hrest hflat' (by omega) hp hne'
          have hgo : insertCursorGo p cls (t :: ts) =
              (insertCursorGo p cls ts).map (t :: ·) := by
            simp only [insertCursorGo]
            rw [if_neg hin, if_neg hs, if_neg he]
          rcases hrec with ⟨pre, u, post, heq, h1, h2, hgo'⟩ |
            ⟨pre, u, post, heq, h1, hgo'⟩ | ⟨pre, u, post, heq, h1, hgo'⟩
          · left
            exact ⟨t :: pre, u, post, by rw [heq]; rfl, h1, h2,
              by rw [hgo, hgo']; rfl⟩
          · right; left
            exact ⟨t :: pre, u, post, by rw [heq]; rfl, h1, by rw [hgo, hgo']; rfl⟩
          · right; right
            exact ⟨t :: pre, u, post, by rw [heq]; rfl, h1, by rw [hgo, hgo']; rfl⟩

/-- **C4.**  On a clean flat partition of `[0, L)` and for every insert-mode
position `p ≤ L`, `applyInsertCursor` realises exactly the three cases: `p`
strictly inside a token splits it into `[start, p)`, a zero-width cursor
token at `p`, and `[p, end)`; `p` equal to a token's `start` inserts the
zero-width cursor token immediately before that token; `p` equal to a
token's `end` inserts it immediately after that token. -/
theorem applyInsertCursor_three_cases (tokens : List VimToken) (p : Nat)
    (cls : String) (L : Nat) (hPart : partitionFrom 0 tokens L = true)
    (hflat : ∀ t ∈ tokens, t.isComplex = false) (hp : p ≤ L) (hne : tokens ≠ []) :
    (∃ pre t post, tokens = pre ++ t :: post ∧ t.start < p ∧ p < t.endPos ∧
       applyInsertCursor tokens p cls = pre ++
         createToken t.type (t.value.take (p - t.start)) t.start p (some t) ::
         emptyCursorToken p cls ::
         createToken t.type (t.value.drop (p - t.start)) p t.endPos (some t) :: post) ∨
    (∃ pre t post, tokens = pre ++ t :: post ∧ p = t.start ∧
       applyInsertCursor tokens p cls = pre ++ emptyCursorToken p cls :: t :: post) ∨
    (∃ pre t post, tokens = pre ++ t :: post ∧ p = t.endPos ∧
       applyInsertCursor tokens p cls = pre ++ t :: emptyCursorToken p cls :: post) := by
  have hrec := insertCursorGo_cases p cls L tokens 0 hPart hflat (Nat.zero_le p) hp hne
  rcases hrec with ⟨pre, u, post, heq, h1, h2, hgo⟩ |
    ⟨pre, u, post, heq, h1, hgo⟩ | ⟨pre, u, post, heq, h1, hgo⟩
  · left
    exact ⟨pre, u, post, heq, h1, h2, by unfold applyInsertCursor; rw [hgo]⟩
  · right; left
    exact ⟨pre, u, post, heq, h1, by unfold applyInsertCursor; rw [hgo]⟩
  · right; right
    exact ⟨pre, u, post, heq, h1, by unfold applyInsertCursor; rw [hgo]⟩

/-- Witness for C4: the two-token partition `"ab" · "cde"` of `[0, 5)` with
the insert cursor strictly inside the second token (position 3). -/
theorem applyInsertCursor_three_cases_witness :
    partitionFrom 0 demoTokens 5 = true ∧ (3 : Nat) ≤ 5 ∧ demoTokens ≠ [] ∧
    ((∃ pre t post, demoTokens = pre ++ t :: post ∧ t.start < 3 ∧ 3 < t.endPos ∧
       applyInsertCursor demoTokens 3 "cursor-insert" = pre ++
         createToken t.type (t.value.take (3 - t.start)) t.start 3 (some t) ::
         emptyCursorToken 3 "cursor-insert" ::
         createToken t.type (t.value.drop (3 - t.start)) 3 t.endPos (some t) :: post) ∨
    (∃ pre t post, demoTokens = pre ++ t :: post ∧ 3 = t.start ∧
       applyInsertCursor demoTokens 3 "cursor-insert" =
         pre ++ emptyCursorToken 3 "cursor-insert" :: t :: post) ∨
    (∃ pre t post, demoTokens = pre ++ t :: post ∧ 3 = t.endPos ∧
       applyInsertCursor demoTokens 3 "cursor-insert" =
         pre ++ t :: emptyCursorToken 3 "cursor-insert" :: post)) :=
  ⟨by decide, by decide, by decide,
   applyInsertCursor_three_cases demoTokens 3 "cursor-insert" 5 (by decide)
     (by decide) (by decide) (by decide)⟩

/-! ### C10: uniqueness of the Normal-mode cursor placement -/

theorem partitionFrom_le : ∀ (ts : List VimToken) (pos L : Nat),
    partitionFrom pos ts L = true → pos ≤ L := by
  intro ts
  induction ts with
  | nil => intro pos L h; exact le_of_eq (partitionFrom_nil h)
  | cons t ts ih =>
    intro pos L h
    obtain ⟨hstart, _, hwf, hrest⟩ := partitionFrom_cons h
    have := ih t.endPos L hrest
    have := wfToken_span hwf
    omega

theorem partitionFrom_clean : ∀ (ts : List VimToken) (pos L : Nat),
    partitionFrom pos ts L = true → ∀ t ∈ ts, cleanToken t = true := by
  intro ts
  induction ts with
  | nil => intro pos L _ t ht; simp at ht
  | cons t ts ih =>
    intro pos L h u hu
    obtain ⟨_, hclean, _, hrest⟩ := partitionFrom_cons h
    rcases List.mem_cons.mp hu with rfl | hu'
    · exact hclean
    · exact ih t.endPos L hrest u hu'

theorem cursorEffect_of_clean {t : VimToken} (h : cleanToken t = true) :
    cursorEffect t = false := by
  obtain ⟨h1, _, _, _, h5⟩ := cleanToken_flags h
  simp [cursorEffect, h1, h5]

theorem cursorEffect_createToken (ty : String) (v : List Char) (s e : Nat)
    (o : Option VimToken) : cursorEffect (createToken ty v s e o) = false := by
  cases o <;> rfl

theorem cursorEffect_withCursor (u : VimToken) (c : String) :
    cursorEffect { u with cursor := some c } = true := by
  simp [cursorEffect]

theorem splitTokenSimple_countP (t : VimToken) (p : Nat) (cls : String)
    (h1 : t.start ≤ p) (h2 : p < t.endPos)
    (hw : t.endPos = t.start + t.value.length) :
    (splitTokenSimple t p cls).countP cursorEffect = 1 := by
  have hg : ¬(p < t.start ∨ t.value.length ≤ p - t.start) := by omega
  unfold splitTokenSimple
  rw [if_neg hg]
  by_cases hb : 0 < p - t.start <;> by_cases ha : p - t.start < t.value.length - 1 <;>
    simp [hb, ha, List.countP_cons, List.countP_append, cursorEffect_createToken,
      cursorEffect_withCursor, List.countP_nil]

theorem insertAtPosition_countP (ts : List VimToken) (c : VimToken) (p : Nat)
    (h : ∀ t ∈ ts, cursorEffect t = false) (hc : cursorEffect c = true) :
    (insertAtPosition ts c p).countP cursorEffect = 1 := by
  induction ts with
  | nil => simp [insertAtPosition, List.countP_cons, hc]
  | cons t ts ih =>
    have ht : cursorEffect t = false := h t (List.mem_cons_self t ts)
    have hts : ∀ u ∈ ts, cursorEffect u = false := fun u hu => h u (List.mem_cons_of_mem t hu)
    have hzero : ts.countP cursorEffect = 0 :=
      List.countP_eq_zero.mpr fun u hu => by simp [hts u hu]
    unfold insertAtPosition
    by_cases hlt : p < t.start <;>
      simp [hlt, List.countP_cons, hc, ht, ih hts, hzero]

theorem simpleCursorGo_found (p : Nat) (cls : String) (L : Nat) :
    ∀ (ts : List VimToken) (pos : Nat), partitionFrom pos ts L = true →
    pos ≤ p → p < L →
    ∃ r, simpleCursorGo p cls ts = some r ∧ r.countP cursorEffect = 1 := by
  intro ts
  induction ts with
  | nil =>
    intro pos h hpos hp
    have := partitionFrom_nil h
    omega
  | cons t ts ih =>
    intro pos h hpos hp
    obtain ⟨hstart, hclean, hwf, hrest⟩ := partitionFrom_cons h
    have hspan := wfToken_span hwf
    have hrest0 : ts.countP cursorEffect = 0 :=
      List.countP_eq_zero.mpr fun u hu => by
        simp [cursorEffect_of_clean (partitionFrom_clean ts t.endPos L hrest u hu)]
    by_cases hin : t.start ≤ p ∧ p < t.endPos
    · refine ⟨(if t.isComplex then [markPartialCursor t p cls]
        else splitTokenSimple t p cls) ++ ts, ?_, ?_⟩
      · unfold simpleCursorGo
        rw [if_pos hin]
      · rw [List.countP_append, hrest0]
        by_cases hc : t.isComplex
        · simp [hc, List.countP_cons, cursorEffect, markPartialCursor]
        · simp only [hc, if_false, Bool.false_eq_true]
          rw [splitTokenSimple_countP t p cls hin.1 hin.2 hspan]
    · obtain ⟨r', hr', hcount⟩ := ih t.endPos hrest (by omega) hp
      refine ⟨t :: r', ?_, ?_⟩
      · unfold simpleCursorGo
        rw [if_neg hin, hr']
        rfl
      · rw [List.countP_cons, hcount]
        simp [cursorEffect_of_clean hclean]

theorem simpleCursorGo_none_of_ge (p : Nat) (cls : String) (L : Nat) :
    ∀ (ts : List VimToken) (pos : Nat), partitionFrom pos ts L = true →
    L ≤ p → simpleCursorGo p cls ts = none := by
  intro ts
  induction ts with
  | nil => intro pos _ _; rfl
  | cons t ts ih =>
    intro pos h hL
    obtain ⟨hstart, _, hwf, hrest⟩ := partitionFrom_cons h
    have hle := partitionFrom_le ts t.endPos L hrest
    have hin : ¬(t.start ≤ p ∧ p < t.endPos) := by omega
    unfold simpleCursorGo
    rw [if_neg hin, ih t.endPos hrest hL]
    rfl

/-- **C10 counterexample.**  The claim asks for exactly one token with a
non-null `cursor` field, but for a partition consisting of a recursive
(complex) token the Normal-mode operation only sets the render-time
partial-cursor mark and leaves every `cursor` field null. -/
theorem normal_cursor_field_counterexample :
    partitionFrom 0 [demoComplex] 3 = true ∧ (0 : Nat) ≤ 3 ∧
    ¬ ((applySimpleCursor [demoComplex] 0 "cursor").countP
        (fun t => t.cursor.isSome) = 1) := by
  refine ⟨by decide, by decide, by decide⟩

/-- **C10 (amended).**  On a clean partition of `[0, L)` and for every
position `p ≤ L`, the Normal-mode cursor operation places exactly one cursor
effect: one token of the result carries either a non-null `cursor` field (a
single-character fragment or the synthesized zero-width cursor token) or the
partial-cursor mark of a recursive token, and all other tokens carry
neither. -/
theorem normal_cursor_single_effect (tokens : List VimToken) (p L : Nat)
    (cls : String) (hPart : partitionFrom 0 tokens L = true) (hp : p ≤ L) :
    (applySimpleCursor tokens p cls).countP cursorEffect = 1 := by
  by_cases hlt : p < L
  · obtain ⟨r, hr, hcount⟩ := simpleCursorGo_found p cls L tokens 0 hPart (Nat.zero_le p) hlt
    unfold applySimpleCursor
    rw [hr]
    exact hcount
  · have hnone := simpleCursorGo_none_of_ge p cls L tokens 0 hPart (by omega)
    unfold applySimpleCursor
    rw [hnone]
    exact insertAtPosition_countP tokens _ p
      (fun u hu => cursorEffect_of_clean (partitionFrom_clean tokens 0 L hPart u hu))
      rfl

/-- Witness for C10 (amended): cursor at position 1 of the flat partition
`"ab" · "cde"`. -/
theorem normal_cursor_single_effect_witness :
    partitionFrom 0 demoTokens 5 = true ∧ (1 : Nat) ≤ 5 ∧
    (applySimpleCursor demoTokens 1 "cursor").countP cursorEffect = 1 :=
  ⟨by decide, by decide,
   normal_cursor_single_effect demoTokens 1 5 "cursor" (by decide) (by decide)⟩

/-! ### C2: the selection boundary law

The character walks of the render-time delegation are first characterised
positionally: every walk marks the character at absolute position `q` with
`selMark s e last q`, independently of how the nested structure groups the
characters. -/

theorem strSelMarks_eq (s e last : Nat) :
    ∀ (cs : List Char) (pos : Nat),
    strSelMarks s e last cs pos =
      (List.range cs.length).map (fun i => selMark s e last (pos + i)) := by
  intro cs
  induction cs with
  | nil => intro pos; simp [strSelMarks]
  | cons a cs ih =>
    intro pos
    rw [show strSelMarks s e last (a :: cs) pos =
      selMark s e last pos :: strSelMarks s e last cs (pos + 1) from rfl]
    rw [ih (pos + 1), List.length_cons, List.range_succ_eq_map, List.map_cons,
      List.map_map]
    congr 1
    apply List.map_congr_left
    intro i _
    simp only [Function.comp_apply]
    congr 1
    omega

mutual

theorem calculateContentLength_eq : ∀ (n : PrismNode),
    calculateContentLength n = (extractTokenText n).length
  | .str s => by simp [calculateContentLength, extractTokenText]
  | .node ty al c => by
    rw [show calculateContentLength (.node ty al c) = calculateContentLengthC c from rfl,
      show extractTokenText (.node ty al c) = extractContentText c from rfl,
      calculateContentLengthC_eq c]

theorem calculateContentLengthC_eq : ∀ (c : PrismContent),
    calculateContentLengthC c = (extractContentText c).length
  | .ofStr s => by simp [calculateContentLengthC, extractContentText]
  | .ofList l => by
    rw [show calculateContentLengthC (.ofList l) = calculateContentLengthL l from rfl,
      show extractContentText (.ofList l) = extractListText l from rfl,
      calculateContentLengthL_eq l]

theorem calculateContentLengthL_eq : ∀ (l : PrismNodeList),
    calculateContentLengthL l = (extractListText l).length
  | .nil => by simp [calculateContentLengthL, extractListText]
  | .cons n ns => by
    rw [show calculateContentLengthL (.cons n ns) =
        calculateContentLength n + calculateContentLengthL ns from rfl,
      show extractListText (.cons n ns) = extractTokenText n ++ extractListText ns from rfl,
      List.length_append, calculateContentLength_eq n, calculateContentLengthL_eq ns]

end

mutual

theorem nodeSelMarks_eq (s e last : Nat) : ∀ (n : PrismNode) (pos : Nat),
    nodeSelMarks s e last n pos =
      (List.range (extractTokenText n).length).map (fun i => selMark s e last (pos + i))
  | .str cs, pos => by
    rw [show nodeSelMarks s e last (.str cs) pos = strSelMarks s e last cs pos from rfl,
      strSelMarks_eq]
    rfl
  | .node ty al c, pos => by
    rw [show nodeSelMarks s e last (.node ty al c) pos =
        contentSelMarks s e last c pos from rfl,
      contentSelMarks_eq s e last c pos]
    rfl

theorem contentSelMarks_eq (s e last : Nat) : ∀ (c : PrismContent) (pos : Nat),
    contentSelMarks s e last c pos =
      (List.range (extractContentText c).length).map (fun i => selMark s e last (pos + i))
  | .ofStr cs, pos => by
    rw [show contentSelMarks s e last (.ofStr cs) pos = strSelMarks s e last cs pos from rfl,
      strSelMarks_eq]
    rfl
  | .ofList l, pos => by
    rw [show contentSelMarks s e last (.ofList l) pos = listSelMarks s e last l pos from rfl,
      listSelMarks_eq s e last l pos]
    rfl

theorem listSelMarks_eq (s e last : Nat) : ∀ (l : PrismNodeList) (pos : Nat),
    listSelMarks s e last l pos =
      (List.range (extractListText l).length).map (fun i => selMark s e last (pos + i))
  | .nil, pos => by
    rw [show listSelMarks s e last .nil pos = [] from rfl]
    rfl
  | .cons n ns, pos => by
    rw [show listSelMarks s e last (.cons n ns) pos =
        nodeSelMarks s e last n pos ++
          listSelMarks s e last ns (pos + calculateContentLength n) from rfl,
      nodeSelMarks_eq s e last n pos,
      listSelMarks_eq s e last ns (pos + calculateContentLength n),
      calculateContentLength_eq n,
      show extractListText (.cons n ns) = extractTokenText n ++ extractListText ns from rfl,
      List.length_append, List.range_add, List.map_append, List.map_map]
    congr 1
    apply List.map_congr_left
    intro i _
    simp only [Function.comp_apply]
    congr 1
    omega

end

theorem getD_range_map {α : Type} (n : Nat) (f : Nat → α) (k : Nat) (d : α) :
    (((List.range n).map f).getD k d) = if k < n then f k else d := by
  by_cases hk : k < n
  · rw [if_pos hk, List.getD_eq_getElem?_getD, List.getElem?_map,
      List.getElem?_range hk]
    rfl
  · rw [if_neg hk, List.getD_eq_getElem?_getD, List.getElem?_eq_none]
    · rfl
    · simpa using Nat.le_of_not_lt hk

theorem wfToken_nested {t : VimToken} (h : wfToken t = true) :
    ∀ st, t.nestedStructure = some st → extractTokenText st = t.value := by
  intro st hst
  simp only [wfToken, Bool.and_eq_true, beq_iff_eq, hst] at h
  exact h.2

theorem tokenSelMarks_eq (t : VimToken) (hwf : wfToken t = true) :
    tokenSelMarks t = (List.range t.value.length).map
      (fun i => selMark t.partialSelectionStart t.partialSelectionEnd
        t.partialLastSelectedPosition (t.start + i)) := by
  cases hns : t.nestedStructure with
  | none => simp only [tokenSelMarks, hns]; rw [strSelMarks_eq]
  | some st => simp only [tokenSelMarks, hns]; rw [nodeSelMarks_eq, wfToken_nested hwf st hns]


theorem selAt_marked (t : VimToken) (hwf : wfToken t = true)
    (hps : t.hasPartialSelection = true) (p : Nat) :
    selAt t p = true ↔
      (t.start ≤ p ∧ p < t.endPos ∧
       t.partialSelectionStart ≤ p ∧ p < t.partialSelectionEnd) := by
  have hspan := wfToken_span hwf
  simp only [selAt, hps, if_true]
  rw [tokenSelMarks_eq t hwf, getD_range_map]
  by_cases h1 : t.start ≤ p
  · have e3 : t.start + (p - t.start) = p := by omega
    by_cases h2 : p - t.start < t.value.length
    · rw [if_pos h2, e3]
      unfold selMark
      by_cases h3 : t.partialSelectionStart ≤ p ∧ p < t.partialSelectionEnd
      · rw [if_pos h3]
        by_cases h4 : p = t.partialLastSelectedPosition <;>
          simp [h4, h1] <;> omega
      · rw [if_neg h3]
        simp [h1]
        omega
    · rw [if_neg h2]
      simp [h1]
      omega
  · simp [h1]

theorem lastAt_marked (t : VimToken) (hwf : wfToken t = true)
    (hps : t.hasPartialSelection = true) (p : Nat) :
    lastAt t p = true ↔
      (t.start ≤ p ∧ p < t.endPos ∧
       t.partialSelectionStart ≤ p ∧ p < t.partialSelectionEnd ∧
       p = t.partialLastSelectedPosition) := by
  have hspan := wfToken_span hwf
  simp only [lastAt, hps, if_true]
  rw [tokenSelMarks_eq t hwf, getD_range_map]
  by_cases h1 : t.start ≤ p
  · have e3 : t.start + (p - t.start) = p := by omega
    by_cases h2 : p - t.start < t.value.length
    · rw [if_pos h2, e3]
      unfold selMark
      by_cases h3 : t.partialSelectionStart ≤ p ∧ p < t.partialSelectionEnd
      · rw [if_pos h3]
        by_cases h4 : p = t.partialLastSelectedPosition <;>
          simp [h4, h1] <;> omega
      · rw [if_neg h3]
        simp [h1]
        omega
    · rw [if_neg h2]
      simp [h1]
      omega
  · simp [h1]


theorem any_ite_single (c : Prop) [Decidable c] (x : VimToken)
    (f : VimToken → Bool) :
    (if c then [x] else []).any f = (decide c && f x) := by
  by_cases hc : c <;> simp [hc]

theorem any_ite_single_rev (c : Prop) [Decidable c] (x : VimToken)
    (f : VimToken → Bool) :
    (if c then [] else [x]).any f = (!(decide c) && f x) := by
  by_cases hc : c <;> simp [hc]

theorem selAt_createToken (ty : String) (v : List Char) (s e : Nat)
    (o : Option VimToken) (p : Nat) : selAt (createToken ty v s e o) p = false := by
  cases o <;> simp [selAt, createToken, VimToken.copy, freshToken]

theorem lastAt_createToken (ty : String) (v : List Char) (s e : Nat)
    (o : Option VimToken) (p : Nat) : lastAt (createToken ty v s e o) p = false := by
  cases o <;> simp [lastAt, createToken, VimToken.copy, freshToken]

theorem selAt_selFrag (ty : String) (v : List Char) (s e : Nat)
    (o : Option VimToken) (p : Nat) :
    selAt { createToken ty v s e o with selected := true } p
      = (decide (s ≤ p) && decide (p < e)) := by
  cases o <;> simp [selAt, createToken, VimToken.copy, freshToken]

theorem lastAt_selFrag (ty : String) (v : List Char) (s e : Nat)
    (o : Option VimToken) (p : Nat) :
    lastAt { createToken ty v s e o with selected := true } p = false := by
  cases o <;> simp [lastAt, createToken, VimToken.copy, freshToken]

theorem selAt_lastFrag (ty : String) (v : List Char) (s e : Nat)
    (o : Option VimToken) (p : Nat) :
    selAt { createToken ty v s e o with selected := true, isLastSelectedChar := true } p
      = (decide (s ≤ p) && decide (p < e)) := by
  cases o <;> simp [selAt, createToken, VimToken.copy, freshToken]

theorem lastAt_lastFrag (ty : String) (v : List Char) (s e : Nat)
    (o : Option VimToken) (p : Nat) :
    lastAt { createToken ty v s e o with selected := true, isLastSelectedChar := true } p
      = (decide (s ≤ p) && decide (p < e)) := by
  cases o <;> simp [lastAt, createToken, VimToken.copy, freshToken]

theorem splitTokenForSelection_marks (t : VimToken) (oS oE last : Nat)
    (hwf : wfToken t = true)
    (h1 : t.start ≤ oS) (h2 : oS < oE) (h3 : oE ≤ t.endPos) (p : Nat) :
    ((splitTokenForSelection t oS oE last).any (selAt · p) = true ↔
      (oS ≤ p ∧ p < oE)) ∧
    ((splitTokenForSelection t oS oE last).any (lastAt · p) = true ↔
      (oS ≤ p ∧ p < oE ∧ p = last)) := by
  have hspan := wfToken_span hwf
  have hmax : t.start ⊔ oS = oS := Nat.max_eq_right h1
  have hmin1 : t.endPos ⊓ oE = oE := Nat.min_eq_right h3
  have hmin2 : t.value.length ⊓ (oE - t.start) = oE - t.start :=
    Nat.min_eq_right (by omega)
  have hsub : oE - t.start - (oS - t.start) = oE - oS := by omega
  have hlenSel : (List.take (oE - oS) (List.drop (oS - t.start) t.value)).length
      = oE - oS := by
    simp [List.length_take, List.length_drop]
    omega
  have hne : ¬(List.take (oE - oS) (List.drop (oS - t.start) t.value) = []) := by
    intro h
    have := congrArg List.length h
    rw [hlenSel] at this
    simp at this
    omega
  unfold splitTokenForSelection
  simp only [hmax, hmin1, hmin2, hsub, if_neg hne]
  by_cases hlin : oS ≤ last ∧ last < oE
  · rw [if_pos hlin]
    have e4 : oS + (last - oS) = last := by omega
    obtain ⟨c, rest, hcr⟩ := List.exists_cons_of_ne_nil
      (show (List.take (oE - oS) (List.drop (oS - t.start) t.value)).drop (last - oS) ≠ []
        from by
          intro h
          have := congrArg List.length h
          simp [List.length_drop, hlenSel] at this
          omega)
    rw [hcr]
    have hafter : (List.drop (last - oS + 1)
        (List.take (oE - oS) (List.drop (oS - t.start) t.value)) = []) ↔ oE ≤ last + 1 := by
      rw [List.drop_eq_nil_iff, hlenSel]
      omega
    simp only [List.head?_cons, e4, hafter]
    constructor
    · simp only [List.any_append, List.any_cons, List.any_nil, any_ite_single,
        any_ite_single_rev]
      simp only [selAt_createToken, selAt_selFrag, selAt_lastFrag]
      simp only [Bool.or_eq_true, Bool.and_eq_true, decide_eq_true_eq, Bool.or_false,
        Bool.false_eq_true, Bool.and_false, false_and, or_false, false_or,
        Bool.not_eq_true', decide_eq_false_iff_not]
      omega
    · simp only [List.any_append, List.any_cons, List.any_nil, any_ite_single,
        any_ite_single_rev]
      simp only [lastAt_createToken, lastAt_selFrag, lastAt_lastFrag]
      simp only [Bool.or_eq_true, Bool.and_eq_true, decide_eq_true_eq, Bool.or_false,
        Bool.false_eq_true, Bool.and_false, false_and, or_false, false_or,
        Bool.not_eq_true', decide_eq_false_iff_not]
      omega
  · rw [if_neg hlin]
    constructor
    · simp only [List.any_append, List.any_cons, List.any_nil, any_ite_single,
        any_ite_single_rev]
      simp only [selAt_createToken, selAt_selFrag]
      simp only [Bool.or_eq_true, Bool.and_eq_true, decide_eq_true_eq, Bool.or_false,
        Bool.false_eq_true, Bool.and_false, false_and, or_false, false_or,
        Bool.not_eq_true', decide_eq_false_iff_not]
    · simp only [List.any_append, List.any_cons, List.any_nil, any_ite_single,
        any_ite_single_rev]
      simp only [lastAt_createToken, lastAt_selFrag]
      simp only [Bool.or_eq_true, Bool.and_eq_true, decide_eq_true_eq, Bool.or_false,
        Bool.false_eq_true, Bool.and_false, false_and, or_false, false_or,
        Bool.not_eq_true', decide_eq_false_iff_not, false_iff, not_and, not_lt]
      intro ha hb
      by_contra hcon
      exact hlin ⟨by omega, by omega⟩


theorem selectOne_marks (s e : Nat) (t : VimToken) (hclean : cleanToken t = true)
    (hwf : wfToken t = true) (hok : t.isComplex = true ∨ t.canBeSplit = true)
    (hse : s < e) (p : Nat) :
    ((selectOne s e (e - 1) t).any (selAt · p) = true ↔
      (t.start ≤ p ∧ p < t.endPos ∧ s ≤ p ∧ p < e)) ∧
    ((selectOne s e (e - 1) t).any (lastAt · p) = true ↔
      (t.start ≤ p ∧ p < t.endPos ∧ s ≤ p ∧ p < e ∧ p = e - 1)) := by
  have hspan := wfToken_span hwf
  obtain ⟨hcur, hsel, hlast, hps, hpc⟩ := cleanToken_flags hclean
  simp only [selectOne]
  by_cases hov : t.start < e ∧ s < t.endPos
  · rw [if_pos hov]
    by_cases hoo : max t.start s < min t.endPos e
    · rw [if_pos hoo]
      by_cases hc : t.isComplex = true
      · rw [if_pos hc]
        have hwfm : wfToken (markPartialSelection t (max t.start s) (min t.endPos e)
            (e - 1)) = true := hwf
        have hpsm : (markPartialSelection t (max t.start s) (min t.endPos e)
            (e - 1)).hasPartialSelection = true := rfl
        constructor
        · simp only [List.any_cons, List.any_nil, Bool.or_false]
          rw [selAt_marked _ hwfm hpsm p]
          simp only [markPartialSelection]
          constructor
          · intro h
            obtain ⟨a, b, c, d⟩ := h
            refine ⟨a, b, ?_, ?_⟩ <;> omega
          · intro h
            refine ⟨h.1, h.2.1, ?_, ?_⟩ <;> omega
        · simp only [List.any_cons, List.any_nil, Bool.or_false]
          rw [lastAt_marked _ hwfm hpsm p]
          simp only [markPartialSelection]
          constructor
          · intro h
            obtain ⟨a, b, c, d, f⟩ := h
            refine ⟨a, b, ?_, ?_, f⟩ <;> omega
          · intro h
            refine ⟨h.1, h.2.1, ?_, ?_, h.2.2.2.2⟩ <;> omega
      · rw [if_neg hc]
        have hcb : ¬(t.canBeSplit = false) := by
          rcases hok with h | h
          · exact absurd h hc
          · rw [h]; simp
        rw [if_neg hcb]
        have hsm := splitTokenForSelection_marks t (max t.start s) (min t.endPos e)
          (e - 1) hwf (le_max_left _ _) hoo (min_le_left _ _) p
        constructor
        · rw [hsm.1]
          constructor
          · intro h
            refine ⟨?_, ?_, ?_, ?_⟩ <;> omega
          · intro h
            constructor <;> omega
        · rw [hsm.2]
          constructor
          · intro h
            refine ⟨?_, ?_, ?_, ?_, ?_⟩ <;> omega
          · intro h
            refine ⟨?_, ?_, ?_⟩ <;> omega
    · rw [if_neg hoo]
      constructor <;>
        simp only [List.any_cons, List.any_nil, Bool.or_false, selAt, lastAt, hps,
          Bool.false_eq_true, if_false, hsel, hlast, Bool.false_and, Bool.and_eq_true] <;>
        constructor <;> intro h
      · simp at h
      · exact absurd (by omega : max t.start s < min t.endPos e) hoo
      · simp at h
      · exact absurd (by omega : max t.start s < min t.endPos e) hoo
  · rw [if_neg hov]
    constructor <;>
      simp only [List.any_cons, List.any_nil, Bool.or_false, selAt, lastAt, hps,
        Bool.false_eq_true, if_false, hsel, hlast, Bool.false_and, Bool.and_eq_true] <;>
      constructor <;> intro h
    · simp at h
    · exact absurd (by omega : t.start < e ∧ s < t.endPos) hov
    · simp at h
    · exact absurd (by omega : t.start < e ∧ s < t.endPos) hov


theorem applySelection_marks_aux (s e : Nat) (hse : s < e) (L : Nat) :
    ∀ (ts : List VimToken) (pos : Nat), partitionFrom pos ts L = true →
    (∀ t ∈ ts, t.isComplex = true ∨ t.canBeSplit = true) → ∀ p,
    ((ts.flatMap (selectOne s e (e - 1))).any (selAt · p) = true ↔
      (pos ≤ p ∧ p < L ∧ s ≤ p ∧ p < e)) ∧
    ((ts.flatMap (selectOne s e (e - 1))).any (lastAt · p) = true ↔
      (pos ≤ p ∧ p < L ∧ s ≤ p ∧ p < e ∧ p = e - 1)) := by
  intro ts
  induction ts with
  | nil =>
    intro pos h _ p
    have hpos := partitionFrom_nil h
    constructor <;> simp [List.flatMap_nil] <;> omega
  | cons t ts ih =>
    intro pos h hok p
    obtain ⟨hstart, hclean, hwf, hrest⟩ := partitionFrom_cons h
    have hspan := wfToken_span hwf
    have hokt := hok t (List.mem_cons_self t ts)
    have hokr : ∀ u ∈ ts, u.isComplex = true ∨ u.canBeSplit = true :=
      fun u hu => hok u (List.mem_cons_of_mem t hu)
    have hhead := selectOne_marks s e t hclean hwf hokt hse p
    have htail := ih t.endPos hrest hokr p
    have hendL : t.endPos ≤ L := partitionFrom_le ts t.endPos L hrest
    constructor
    · rw [List.flatMap_cons, List.any_append, Bool.or_eq_true, hhead.1, htail.1]
      omega
    · rw [List.flatMap_cons, List.any_append, Bool.or_eq_true, hhead.2, htail.2]
      omega

/-- **C2 counterexample.**  The boundary law fails on partitions containing a
non-splittable flat token: for the two-character non-splittable token
`"ab"` over `[0, 2)` and the selection `[0, 2)`, the fully-covered token is
flagged whole (`applySelectionToComplexToken`), so the character at offset 0
also carries the block-cursor flag even though `e - 1 = 1`. -/
theorem selection_boundary_counterexample :
    partitionFrom 0 [demoNonSplittable] 2 = true ∧
    anyLastAt (applySelection [demoNonSplittable] 0 2) 0 = true ∧
    (0 : Nat) ≠ 2 - 1 ∧
    ¬(∀ p, anyLastAt (applySelection [demoNonSplittable] 0 2) p = true ↔ p = 2 - 1) := by
  refine ⟨by decide, by decide, by decide, ?_⟩
  intro h
  exact absurd ((h 0).mp (by decide)) (by decide)

/-- **C2 (amended).**  For every clean token sequence partitioning `[0, L)`
whose flat tokens are all generically splittable (recursive tokens are
allowed: they delegate), and every selection `[s, e)` with
`s < e ≤ L`: after `applySelection`, exactly the characters at offsets in
`[s, e)` display as selected (directly on leaf fragments or via the
recursive-token partial-selection delegation), and exactly the single
character at offset `e - 1` displays the block cursor
(`isLastSelectedChar` / the `.block` mark).  (A non-splittable flat token
fully covered by the selection instead receives whole-token flags, see the
counterexample.) -/
theorem selection_boundary_law (tokens : List VimToken) (L s e : Nat)
    (hPart : partitionFrom 0 tokens L = true)
    (hok : ∀ t ∈ tokens, t.isComplex = true ∨ t.canBeSplit = true)
    (hse : s < e) (heL : e ≤ L) :
    (∀ p, anySelAt (applySelection tokens s e) p = true ↔ (s ≤ p ∧ p < e)) ∧
    (∀ p, anyLastAt (applySelection tokens s e) p = true ↔ p = e - 1) := by
  have hng : ¬(e ≤ s) := by omega
  constructor <;> intro p
  · unfold anySelAt applySelection
    rw [if_neg hng, (applySelection_marks_aux s e hse L tokens 0 hPart hok p).1]
    omega
  · unfold anyLastAt applySelection
    rw [if_neg hng, (applySelection_marks_aux s e hse L tokens 0 hPart hok p).2]
    omega

/-- Witness for C2 (amended): the flat partition `"ab" · "cde"` of `[0, 5)`
with selection `[1, 3)`, observed at offset 2 (inside the range and equal to
`e - 1`). -/
theorem selection_boundary_law_witness :
    partitionFrom 0 demoTokens 5 = true ∧
    (∀ t ∈ demoTokens, t.isComplex = true ∨ t.canBeSplit = true) ∧
    (1 : Nat) < 3 ∧ (3 : Nat) ≤ 5 ∧
    (anySelAt (applySelection demoTokens 1 3) 2 = true ↔ ((1 : Nat) ≤ 2 ∧ 2 < 3)) ∧
    (anyLastAt (applySelection demoTokens 1 3) 2 = true ↔ (2 = 3 - 1)) :=
  ⟨by decide, by decide, by decide, by decide,
   (selection_boundary_law demoTokens 5 1 3 (by decide) (by decide) (by decide)
     (by decide)).1 2,
   (selection_boundary_law demoTokens 5 1 3 (by decide) (by decide) (by decide)
     (by decide)).2 2⟩

/-! ### C9: copy-on-write versus in-place annotation

`uid` models JS object identity (see header): fresh tokens built inside an
engine call carry `uid = 0`, while the in-place field assignments of the
source (`markPartialSelection`, `markPartialCursor`,
`applySelectionToComplexToken`) keep the object's `uid` and change its
fields.  "The operation never mutates input token objects" then reads:
every output token is either freshly created or an unchanged member of the
input. -/

theorem uid_createToken (ty : String) (v : List Char) (s e : Nat)
    (o : Option VimToken) : (createToken ty v s e o).uid = 0 := by
  cases o <;> rfl

theorem splitTokenSimple_uids (t : VimToken) (p : Nat) (cls : String) :
    ∀ u ∈ splitTokenSimple t p cls, u.uid = 0 ∨ u = t := by
  intro u hu
  simp only [splitTokenSimple] at hu
  split at hu
  · simp only [List.mem_singleton] at hu
    exact Or.inr hu
  · simp only [List.mem_append, List.mem_cons, List.not_mem_nil, or_false] at hu
    rcases hu with hu | hu | hu
    · split at hu
      · simp only [List.mem_singleton] at hu
        subst hu
        exact Or.inl (uid_createToken _ _ _ _ _)
      · simp at hu
    · subst hu
      exact Or.inl (uid_createToken _ _ _ _ _)
    · split at hu
      · simp only [List.mem_singleton] at hu
        subst hu
        exact Or.inl (uid_createToken _ _ _ _ _)
      · simp at hu

theorem splitTokenForInsert_uids (t : VimToken) (p : Nat) (cls : String) :
    ∀ u ∈ splitTokenForInsert t p cls, u.uid = 0 ∨ u = t := by
  intro u hu
  simp only [splitTokenForInsert] at hu
  split at hu
  · simp only [List.mem_singleton] at hu
    exact Or.inr hu
  · simp only [List.mem_cons, List.not_mem_nil, or_false] at hu
    rcases hu with rfl | rfl | rfl
    · exact Or.inl (uid_createToken _ _ _ _ _)
    · exact Or.inl rfl
    · exact Or.inl (uid_createToken _ _ _ _ _)

theorem splitTokenForSelection_uids (t : VimToken) (oS oE last : Nat) :
    ∀ u ∈ splitTokenForSelection t oS oE last, u.uid = 0 := by
  intro u hu
  simp only [splitTokenForSelection, List.mem_append] at hu
  rcases hu with (hu | hu) | hu
  · split at hu
    · simp only [List.mem_singleton] at hu
      subst hu
      exact uid_createToken _ _ _ _ _
    · simp at hu
  · split at hu
    · simp at hu
    · split at hu
      · simp only [List.mem_append] at hu
        rcases hu with (hu | hu) | hu
        · split at hu
          · simp only [List.mem_singleton] at hu
            subst hu
            exact uid_createToken _ _ _ _ _
          · simp at hu
        · split at hu
          · simp only [List.mem_singleton] at hu
            subst hu
            exact uid_createToken _ _ _ _ _
          · simp at hu
        · split at hu
          · simp at hu
          · simp only [List.mem_singleton] at hu
            subst hu
            exact uid_createToken _ _ _ _ _
      · simp only [List.mem_singleton] at hu
        subst hu
        exact uid_createToken _ _ _ _ _
  · split at hu
    · simp only [List.mem_singleton] at hu
      subst hu
      exact uid_createToken _ _ _ _ _
    · simp at hu

theorem insertAtPosition_mem (ts : List VimToken) (c : VimToken) (p : Nat) :
    ∀ u ∈ insertAtPosition ts c p, u = c ∨ u ∈ ts := by
  induction ts with
  | nil =>
    intro u hu
    simp only [insertAtPosition, List.mem_singleton] at hu
    exact Or.inl hu
  | cons t ts ih =>
    intro u hu
    unfold insertAtPosition at hu
    split at hu
    · rcases List.mem_cons.mp hu with rfl | hu'
      · exact Or.inl rfl
      · exact Or.inr hu'
    · rcases List.mem_cons.mp hu with rfl | hu'
      · exact Or.inr (List.mem_cons_self _ _)
      · rcases ih u hu' with h | h
        · exact Or.inl h
        · exact Or.inr (List.mem_cons_of_mem _ h)

theorem simpleCursorGo_uids (p : Nat) (cls : String) :
    ∀ (ts : List VimToken), (∀ t ∈ ts, t.isComplex = false) →
    ∀ r, simpleCursorGo p cls ts = some r →
    ∀ u ∈ r, u.uid = 0 ∨ u ∈ ts := by
  intro ts
  induction ts with
  | nil => intro _ r hr; simp [simpleCursorGo] at hr
  | cons t ts ih =>
    intro hflat r hr u hu
    have hflatt : t.isComplex = false := hflat t (List.mem_cons_self t ts)
    have hflats : ∀ v ∈ ts, v.isComplex = false :=
      fun v hv => hflat v (List.mem_cons_of_mem t hv)
    unfold simpleCursorGo at hr
    split at hr
    · rw [Option.some.injEq] at hr
      subst hr
      rcases List.mem_append.mp hu with hu | hu
      · rw [hflatt] at hu
        simp only [Bool.false_eq_true, if_false] at hu
        rcases splitTokenSimple_uids t p cls u hu with h | rfl
        · exact Or.inl h
        · exact Or.inr (List.mem_cons_self _ _)
      · exact Or.inr (List.mem_cons_of_mem _ hu)
    · rw [Option.map_eq_some'] at hr
      obtain ⟨r', hr', rfl⟩ := hr
      rcases List.mem_cons.mp hu with rfl | hu'
      · exact Or.inr (List.mem_cons_self _ _)
      · rcases ih hflats r' hr' u hu' with h | h
        · exact Or.inl h
        · exact Or.inr (List.mem_cons_of_mem _ h)

theorem insertCursorGo_uids (p : Nat) (cls : String) :
    ∀ (ts : List VimToken), (∀ t ∈ ts, t.isComplex = false) →
    ∀ r, insertCursorGo p cls ts = some r →
    ∀ u ∈ r, u.uid = 0 ∨ u ∈ ts := by
  intro ts
  induction ts with
  | nil => intro _ r hr; simp [insertCursorGo] at hr
  | cons t ts ih =>
    intro hflat r hr u hu
    have hflatt : t.isComplex = false := hflat t (List.mem_cons_self t ts)
    have hflats : ∀ v ∈ ts, v.isComplex = false :=
      fun v hv => hflat v (List.mem_cons_of_mem t hv)
    unfold insertCursorGo at hr
    split at hr
    · rw [Option.some.injEq] at hr
      subst hr
      rcases List.mem_append.mp hu with hu | hu
      · rw [hflatt] at hu
        simp only [Bool.false_eq_true, if_false] at hu
        rcases splitTokenForInsert_uids t p cls u hu with h | rfl
        · exact Or.inl h
        · exact Or.inr (List.mem_cons_self _ _)
      · exact Or.inr (List.mem_cons_of_mem _ hu)
    · split at hr
      · rw [Option.some.injEq] at hr
        subst hr
        rcases List.mem_cons.mp hu with rfl | hu'
        · exact Or.inl (uid_createToken _ _ _ _ _)
        · rcases List.mem_cons.mp hu' with rfl | hu''
          · exact Or.inr (List.mem_cons_self _ _)
          · exact Or.inr (List.mem_cons_of_mem _ hu'')
      · split at hr
        · rw [Option.some.injEq] at hr
          subst hr
          rcases List.mem_cons.mp hu with rfl | hu'
          · exact Or.inr (List.mem_cons_self _ _)
          · rcases List.mem_cons.mp hu' with rfl | hu''
            · exact Or.inl (uid_createToken _ _ _ _ _)
            · exact Or.inr (List.mem_cons_of_mem _ hu'')
        · rw [Option.map_eq_some'] at hr
          obtain ⟨r', hr', rfl⟩ := hr
          rcases List.mem_cons.mp hu with rfl | hu'
          · exact Or.inr (List.mem_cons_self _ _)
          · rcases ih hflats r' hr' u hu' with h | h
            · exact Or.inl h
            · exact Or.inr (List.mem_cons_of_mem _ h)

theorem selectOne_uids (s e last : Nat) (t : VimToken)
    (hflat : t.isComplex = false) (hsplit : t.canBeSplit = true) :
    ∀ u ∈ selectOne s e last t, u.uid = 0 ∨ u = t := by
  intro u hu
  simp only [selectOne] at hu
  split at hu
  · split at hu
    · rw [hflat] at hu
      simp only [Bool.false_eq_true, if_false] at hu
      rw [hsplit] at hu
      simp only [Bool.true_eq_false, if_false] at hu
      exact Or.inl (splitTokenForSelection_uids _ _ _ _ u hu)
    · simp only [List.mem_singleton] at hu
      exact Or.inr hu
  · simp only [List.mem_singleton] at hu
    exact Or.inr hu

/-- **C9 counterexample.**  `applySelection` on a recursive (complex) token
annotates the input token object in place: the output holds a token with the
same identity (`uid`) as the input token but different fields
(`hasPartialSelection` set), so it is neither freshly created nor an
unchanged member of the input — the operation is not copy-on-write. -/
theorem in_place_mutation_counterexample :
    demoComplex.uid = 7 ∧ demoComplex.hasPartialSelection = false ∧
    ¬(∀ u ∈ applySelection [demoComplex] 0 2, u.uid = 0 ∨ u ∈ [demoComplex]) := by
  refine ⟨rfl, rfl, ?_⟩
  intro h
  have hmem : markPartialSelection demoComplex 0 2 1 ∈ applySelection [demoComplex] 0 2 := by
    decide
  rcases h _ hmem with h0 | hm
  · exact absurd h0 (by decide)
  · exact absurd hm (by decide)

/-- **C9 (amended).**  For token sequences consisting only of flat,
generically splittable tokens, all three effect operations are copy-on-write:
every token of the output is either freshly created inside the call
(`uid = 0`: a fragment built by `createToken`/`copy`, or a zero-width cursor
token) or an unchanged member of the input sequence.  Recursive tokens and
non-splittable flat tokens are instead annotated in place (see the
counterexample). -/
theorem copy_on_write_flat (tokens : List VimToken)
    (hflat : ∀ t ∈ tokens, t.isComplex = false ∧ t.canBeSplit = true) :
    (∀ (p : Nat) (cls : String), ∀ u ∈ applySimpleCursor tokens p cls,
      u.uid = 0 ∨ u ∈ tokens) ∧
    (∀ (p : Nat) (cls : String), ∀ u ∈ applyInsertCursor tokens p cls,
      u.uid = 0 ∨ u ∈ tokens) ∧
    (∀ (selectionStart selectionEnd : Nat),
      ∀ u ∈ applySelection tokens selectionStart selectionEnd,
      u.uid = 0 ∨ u ∈ tokens) := by
  refine ⟨?_, ?_, ?_⟩
  · intro p cls u hu
    unfold applySimpleCursor at hu
    cases hgo : simpleCursorGo p cls tokens with
    | some r =>
      rw [hgo] at hu
      exact simpleCursorGo_uids p cls tokens (fun t ht => (hflat t ht).1) r hgo u hu
    | none =>
      rw [hgo] at hu
      rcases insertAtPosition_mem tokens _ p u hu with rfl | h
      · exact Or.inl (uid_createToken _ _ _ _ _)
      · exact Or.inr h
  · intro p cls u hu
    unfold applyInsertCursor at hu
    cases hgo : insertCursorGo p cls tokens with
    | some r =>
      rw [hgo] at hu
      exact insertCursorGo_uids p cls tokens (fun t ht => (hflat t ht).1) r hgo u hu
    | none =>
      rw [hgo] at hu
      rcases insertAtPosition_mem tokens _ p u hu with rfl | h
      · exact Or.inl (uid_createToken _ _ _ _ _)
      · exact Or.inr h
  · intro s e u hu
    unfold applySelection at hu
    split at hu
    · exact Or.inr hu
    · rcases List.mem_flatMap.mp hu with ⟨t, ht, hut⟩
      rcases selectOne_uids s e (e - 1) t (hflat t ht).1 (hflat t ht).2 u hut with h | rfl
      · exact Or.inl h
      · exact Or.inr ht

/-- Witness for C9 (amended): the flat partition `"ab" · "cde"` under all
three operations, checked on one output token each. -/
theorem copy_on_write_flat_witness :
    (∀ t ∈ demoTokens, t.isComplex = false ∧ t.canBeSplit = true) ∧
    (∀ u ∈ applySimpleCursor demoTokens 1 "cursor", u.uid = 0 ∨ u ∈ demoTokens) ∧
    (∀ u ∈ applyInsertCursor demoTokens 1 "cursor-insert", u.uid = 0 ∨ u ∈ demoTokens) ∧
    (∀ u ∈ applySelection demoTokens 1 3, u.uid = 0 ∨ u ∈ demoTokens) :=
  ⟨by decide,
   (copy_on_write_flat demoTokens (by decide)).1 1 "cursor",
   (copy_on_write_flat demoTokens (by decide)).2.1 1 "cursor-insert",
   (copy_on_write_flat demoTokens (by decide)).2.2 1 3⟩

end VimCraft
